import Mathlib

/-!
Shallow embedding of `anagram.py` (an anagram solver) and verification of its
specification claims.

Words are represented by letter-frequency vectors of 26 integer components.
The program stores the set of frequency vectors of dictionary words in a
prefix tree (`_VectorSet`), queries it for vectors dominated by a query
vector (`query_lte`), recursively enumerates tuples of vectors summing to the
query vector (`_find_anagram_vecs`), and expands each tuple into word tuples
(`_expand_anagram_vecs`).

Modelling decisions:
- Python integers are `Int`; frequency vectors are `List Int`.
- Python dict iteration order is modelled as insertion order (as in CPython
  3.7+; in the Python-2 source the order is hash-dependent and in particular
  not sorted).  A `defaultdict` child table is an association list to which
  new keys are appended at the end.
- Python set iteration order (used by `_load_words`) is modelled as first
  occurrence order (`firstDedup`).
- The recursive generator `_find_anagram_vecs` can fail to terminate (when a
  zero vector is stored in the tree), so it is embedded with an explicit
  fuel parameter; `none` means the computation did not finish within the
  given fuel.  A full run of the generator is modelled as the eagerly
  collected list of its yields.
- The `UnboundLocalError` that `_make_tree` raises when `query_word` is the
  empty string (line 117 tests truthiness, line 122 tests `is None`) is
  modelled by `keptWords` returning `none`.
-/

/-- Frequency vectors: Python tuples of ints. -/
abbrev Vec := List Int

/-- Embeds `_vec_sub` (anagram.py lines 129-132): component-wise subtraction
of two vectors of equal length (the source asserts equal lengths and zips). -/
def vecSub (v1 v2 : Vec) : Vec :=
  List.zipWith (fun a b => a - b) v1 v2

/-- Embeds `_vec_lte` (anagram.py lines 134-136):
`all(a <= b for a, b in zip(v1, v2))`. -/
def vecLte (v1 v2 : Vec) : Bool :=
  (v1.zip v2).all fun p => decide (p.1 ≤ p.2)

/-- Component-wise addition (specification-side inverse of `vecSub`). -/
def vecAdd (v1 v2 : Vec) : Vec :=
  List.zipWith (fun a b => a + b) v1 v2

/-- Embeds `sum(query_vec)` (anagram.py line 149): total of the components. -/
def vecTotal (v : Vec) : Int :=
  v.sum

/-- The total of a vector as a natural number, used as a fuel measure. -/
def vecTotalNat (v : Vec) : Nat :=
  (vecTotal v).toNat

/-- Component-wise sum of a list of vectors of length `n` (specification-side:
"the component-wise sum of all signatures in `t`"). -/
def vecSumN (n : Nat) (ts : List Vec) : Vec :=
  ts.foldr vecAdd (List.replicate n 0)

/-- Python tuple comparison `v1 <= v2` on integer tuples: lexicographic with
a proper prefix comparing as smaller. -/
def lexLe : Vec → Vec → Bool
  | [], _ => true
  | _ :: _, [] => false
  | a :: as_, b :: bs => if a < b then true else if a = b then lexLe as_ bs else false

/-- Propositional form of `lexLe`. -/
def lexLeP (v1 v2 : Vec) : Prop :=
  lexLe v1 v2 = true

instance : DecidableRel lexLeP := fun v1 v2 =>
  inferInstanceAs (Decidable (lexLe v1 v2 = true))

/-- Embeds the class `_VectorSet` (anagram.py lines 41-86): a prefix tree.
`present` marks that the empty tuple belongs to this node's set, and
`children` maps a head value to the subtree of tails (dict modelled as an
association list in insertion order). -/
inductive VectorSet : Type where
  | node (present : Bool) (children : List (Int × VectorSet)) : VectorSet
deriving Repr

/-- The tree `_VectorSet()` freshly constructed (anagram.py lines 51-53). -/
abbrev emptyVS : VectorSet := .node false []

/-- The chain of nodes that `_add_vec` creates below a fresh
`defaultdict`-created child for the remaining components of a vector. -/
def freshVec : Vec → VectorSet
  | [] => .node true []
  | a :: v => .node false [(a, freshVec v)]

/-- Updates the association list of children at key `a` with `f`, appending a
`defaultdict`-created fresh node when the key is absent.  New keys go to the
end, as dict insertion order dictates. -/
def updateChild (cs : List (Int × VectorSet)) (a : Int) (f : VectorSet → VectorSet) :
    List (Int × VectorSet) :=
  match cs with
  | [] => [(a, f (.node false []))]
  | (b, c) :: rest => if b = a then (b, f c) :: rest else (b, c) :: updateChild rest a f

/-- Embeds `_VectorSet._add_vec` (anagram.py lines 55-59): descend along the
vector's components (creating children on demand) and mark the final node. -/
def addVec : VectorSet → Vec → VectorSet
  | .node _ cs, [] => .node true cs
  | .node p cs, a :: v => .node p (updateChild cs a fun c => addVec c v)

/-- A vector is a member of the tree when following its components from the
root ends in a node with `present` set.  (Implicit in the `_VectorSet`
docstring, lines 41-50.) -/
def memVec : VectorSet → Vec → Bool
  | .node p _, [] => p
  | .node _ cs, a :: v => cs.any fun bc => decide (bc.1 = a) && memVec bc.2 v

/-- Embeds `_VectorSet.query_lte` (anagram.py lines 61-86).  Yields, in child
insertion order, every stored vector of the query's length that is
component-wise at most `queryVec` and lexicographically at least `minVec`;
the base case `() >= min_vec` holds exactly when `min_vec` is empty. -/
def queryLte : VectorSet → Vec → Vec → List Vec
  | .node p _, [], minVec => if p ∧ minVec = [] then [[]] else []
  | .node _ cs, q0 :: qs, minVec =>
    cs.flatMap fun vc =>
      match minVec with
      | [] =>
        if vc.1 ≤ q0 then (queryLte vc.2 qs []).map fun cv => vc.1 :: cv else []
      | m0 :: ms =>
        if vc.1 ≤ q0 ∧ m0 ≤ vc.1 then
          (queryLte vc.2 qs (if m0 < vc.1 then [] else ms)).map fun cv => vc.1 :: cv
        else []

/-- Builds a `_VectorSet` from a list of vectors (anagram.py lines 124-126:
`for vec in vec_dict.keys(): tree._add_vec(vec)`). -/
def buildTree (vs : List Vec) : VectorSet :=
  vs.foldl addVec emptyVS

/-- Embeds `_make_vec` (anagram.py lines 88-92): for each of the 26 letters
`chr(ord('A') + i)` count its occurrences in the word. -/
def makeVec (w : String) : Vec :=
  (List.range 26).map fun i => ((w.toList.count (Char.ofNat (65 + i)) : Nat) : Int)

/-- Tests membership in the character class `[A-Z]` (code points 65-90). -/
def isUpperAlpha (c : Char) : Bool :=
  65 ≤ c.toNat && c.toNat ≤ 90

/-- Embeds `_canonicalize_word` (anagram.py lines 94-96): uppercase, then
strip every character outside `A`-`Z`. -/
def canonicalizeWord (w : String) : String :=
  String.mk ((w.toList.map Char.toUpper).filter isUpperAlpha)

/-- Deduplication keeping first occurrences: models building a Python set
from an iterable together with its iteration order. -/
def firstDedup {α : Type} [DecidableEq α] (l : List α) : List α :=
  l.foldl (fun acc w => if w ∈ acc then acc else acc ++ [w]) []

/-- Embeds `_load_words` (anagram.py lines 98-102) applied to the lines of
the word-list file: canonicalize every line, collect the set of results, and
keep those whose length is at least `minWordLength`. -/
def loadWords (lines : List String) (minWordLength : Int) : List String :=
  (firstDedup (lines.map canonicalizeWord)).filter fun w => decide (minWordLength ≤ (w.length : Int))

/-- Embeds the word-filtering part of `_make_tree` (anagram.py lines
117-123).  With `query_word = None` every word is kept.  With an actual
query word, line 117 (`if query_word:`) computes `query_vec` only for a
non-empty string while line 122 (`query_word is None or _vec_lte(...)`)
reads it for any non-`None` value, so a supplied empty query word raises
`UnboundLocalError` as soon as one word is examined; that error is modelled
as `none`. -/
def keptWords (words : List String) (queryWord : Option String) : Option (List String) :=
  match queryWord with
  | none => some words
  | some qw =>
    if 0 < qw.length then some (words.filter fun w => vecLte (makeVec w) (makeVec qw))
    else if words.isEmpty then some [] else none

/-- Embeds the `vec_dict` built by `_make_tree` (anagram.py lines 119-123):
each vector maps to the kept words having that vector, in iteration order. -/
def vecDict (kept : List String) : Vec → List String :=
  fun v => kept.filter fun w => decide (makeVec w = v)

/-- Embeds the tree built by `_make_tree` (anagram.py lines 124-127) from the
kept words: one insertion per distinct frequency vector, in first-occurrence
order (dict key order of `vec_dict`). -/
def treeOf (kept : List String) : VectorSet :=
  buildTree (firstDedup (kept.map makeVec))

/-- Sequences a list of optional lists, concatenating the payloads; `none`
as soon as any element is `none`.  Used to model a full run of a recursive
generator whose sub-generators may fail to finish. -/
def optJoin {α : Type} : List (Option (List α)) → Option (List α)
  | [] => some []
  | none :: _ => none
  | some xs :: rest => (optJoin rest).map fun ys => xs ++ ys

/-- Embeds `_find_anagram_vecs` (anagram.py lines 138-157) with explicit
fuel.  If the query vector's components sum to zero, yield the empty tuple;
otherwise for every vector of `queryLte` (in order) recurse on the
difference with the found vector as new lower bound, prepending the found
vector to every recursive yield.  `none` models non-termination: the
recursion did not complete within `fuel` nested levels. -/
def findAnagramVecsF : Nat → VectorSet → Vec → Vec → Option (List (List Vec))
  | 0, _, _, _ => none
  | fuel + 1, tree, queryVec, minVec =>
    if vecTotal queryVec = 0 then some [[]]
    else
      optJoin ((queryLte tree queryVec minVec).map fun vec =>
        (findAnagramVecsF fuel tree (vecSub queryVec vec) vec).map fun anagrams =>
          anagrams.map fun anagram => vec :: anagram)

/-- Embeds `_expand_anagram_vecs` (anagram.py lines 159-169).  The empty
tuple expands to the single empty word tuple; otherwise the outer loop runs
over the recursively expanded tail and the inner loop over the head
vector's word list. -/
def expandAnagramVecs (d : Vec → List String) : List Vec → List (List String)
  | [] => [[]]
  | v :: vs => (expandAnagramVecs d vs).flatMap fun tail => (d v).map fun w => w :: tail

/-- Possible outcomes of a full (eager) run of `find_anagrams`. -/
inductive Outcome (α : Type) : Type where
  | ok : α → Outcome α
  | nameErr : Outcome α
  | noFuel : Outcome α
deriving DecidableEq, Repr

/-- Embeds `find_anagrams` (anagram.py lines 171-182) run to completion with
the given fuel for the recursive search.  `useFilter` selects whether the
canonicalized query word is passed to `_make_tree` (as the source does) or
`query_word=None` is used; `nameErr` models the `UnboundLocalError` of
`_make_tree`, `noFuel` models a search that does not terminate. -/
def findAnagramsF (fuel : Nat) (queryWord : String) (lines : List String)
    (minWordLength : Int) (useFilter : Bool) : Outcome (List (List String)) :=
  let qw := canonicalizeWord queryWord
  let qv := makeVec qw
  match keptWords (loadWords lines minWordLength) (if useFilter then some qw else none) with
  | none => .nameErr
  | some kept =>
    match findAnagramVecsF fuel (treeOf kept) qv [] with
    | none => .noFuel
    | some tuples => .ok (tuples.flatMap fun ts => expandAnagramVecs (vecDict kept) ts)

/-- Well-formedness invariant of the tree: every node's child table has
pairwise-distinct keys, as Python dict keys are.  It holds for every tree
built with `addVec` and gives duplicate-freeness of `queryLte` results. -/
inductive WFVS : VectorSet → Prop where
  | node : ∀ (p : Bool) (cs : List (Int × VectorSet)),
      (cs.map Prod.fst).Nodup → (∀ bc ∈ cs, WFVS bc.2) → WFVS (.node p cs)

/-- Concrete vector-to-word-list mapping used to exhibit the word-expansion
order of `_expand_anagram_vecs` on a two-vector tuple. -/
def dEx : Vec → List String := fun v => if v = [1] then ["A", "B"] else ["C", "D"]

example : queryLte (buildTree [[1, 0], [0, 1]]) [1, 1] [] = [[1, 0], [0, 1]] := by decide

example : findAnagramVecsF 3 (buildTree [[1]]) [2] [] = some [[[1], [1]]] := by decide

example : expandAnagramVecs (fun v => if v = [1] then ["A", "B"] else ["C", "D"]) [[1], [2]] =
    [["A", "C"], ["B", "C"], ["A", "D"], ["B", "D"]] := by decide

/-! Basic properties of the Python tuple order `lexLe`. -/

@[simp]
theorem lexLe_nil_left (v : Vec) : lexLe [] v = true := by
  cases v <;> rfl

@[simp]
theorem lexLe_nil_right (v : Vec) : lexLe v [] = true ↔ v = [] := by
  cases v <;> simp [lexLe]

theorem lexLe_refl (v : Vec) : lexLe v v = true := by
  induction v with
  | nil => rfl
  | cons a as_ ih => simp [lexLe, ih]

theorem lexLe_trans {a b c : Vec} (h1 : lexLe a b = true) (h2 : lexLe b c = true) :
    lexLe a c = true := by
  induction a generalizing b c with
  | nil => simp
  | cons x xs ih =>
    cases b with
    | nil => simp [lexLe] at h1
    | cons y ys =>
      cases c with
      | nil => simp [lexLe] at h2
      | cons z zs =>
        simp only [lexLe] at h1 h2 ⊢
        by_cases hxy : x < y
        · by_cases hyz : y < z
          · rw [if_pos (by omega)]
          · rw [if_neg hyz] at h2
            by_cases hyz2 : y = z
            · rw [if_pos (by omega)]
            · rw [if_neg hyz2] at h2; simp at h2
        · rw [if_neg hxy] at h1
          by_cases hxy2 : x = y
          · subst hxy2
            rw [if_pos rfl] at h1
            by_cases hxz : x < z
            · rw [if_pos hxz]
            · rw [if_neg hxz] at h2 ⊢
              by_cases hxz2 : x = z
              · rw [if_pos hxz2] at h2 ⊢
                exact ih h1 h2
              · rw [if_neg hxz2] at h2; simp at h2
          · rw [if_neg hxy2] at h1; simp at h1

theorem lexLe_antisymm {a b : Vec} (h1 : lexLe a b = true) (h2 : lexLe b a = true) :
    a = b := by
  induction a generalizing b with
  | nil =>
    cases b with
    | nil => rfl
    | cons y ys => simp [lexLe] at h2
  | cons x xs ih =>
    cases b with
    | nil => simp [lexLe] at h1
    | cons y ys =>
      simp only [lexLe] at h1 h2
      by_cases hxy : x = y
      · subst hxy
        rw [if_neg (lt_irrefl x), if_pos rfl] at h1 h2
        rw [ih h1 h2]
      · rcases lt_or_gt_of_ne hxy with h | h
        · rw [if_neg (by omega), if_neg (by omega)] at h2; simp at h2
        · rw [if_neg (by omega), if_neg (by omega)] at h1; simp at h1


/-! Basic properties of vector arithmetic. -/

@[simp]
theorem vecLte_nil_left (q : Vec) : vecLte [] q = true := by
  simp [vecLte]

@[simp]
theorem vecLte_nil_right (v : Vec) : vecLte v [] = true := by
  simp [vecLte]

@[simp]
theorem vecLte_cons (a b : Int) (v q : Vec) :
    vecLte (a :: v) (b :: q) = (decide (a ≤ b) && vecLte v q) := by
  simp [vecLte]

@[simp]
theorem vecSub_nil_left (v : Vec) : vecSub [] v = [] := rfl

@[simp]
theorem vecSub_nil_right (v : Vec) : vecSub v [] = [] := by
  simp [vecSub]

@[simp]
theorem vecSub_cons (a b : Int) (v q : Vec) :
    vecSub (a :: v) (b :: q) = (a - b) :: vecSub v q := rfl

@[simp]
theorem vecAdd_cons (a b : Int) (v q : Vec) :
    vecAdd (a :: v) (b :: q) = (a + b) :: vecAdd v q := rfl

theorem vecSub_length (q v : Vec) : (vecSub q v).length = min q.length v.length := by
  simp [vecSub]

theorem vecAdd_vecSub_cancel {v q : Vec} (hlen : v.length = q.length)
    (hle : vecLte v q = true) : vecAdd v (vecSub q v) = q := by
  induction v generalizing q with
  | nil => cases q <;> simp_all [vecAdd, vecSub]
  | cons a as_ ih =>
    cases q with
    | nil => simp_all
    | cons b bs =>
      simp only [vecSub_cons, vecAdd_cons, List.cons.injEq]
      exact ⟨by omega, ih (by simpa using hlen) (by simp_all)⟩

theorem vecSub_vecAdd_cancel {v s : Vec} (hlen : v.length = s.length) :
    vecSub (vecAdd v s) v = s := by
  induction v generalizing s with
  | nil => cases s <;> simp_all [vecAdd, vecSub]
  | cons a as_ ih =>
    cases s with
    | nil => simp_all
    | cons b bs =>
      simp only [vecAdd_cons, vecSub_cons, List.cons.injEq]
      exact ⟨by omega, ih (by simpa using hlen)⟩

theorem vecTotal_vecSub {q v : Vec} (hlen : v.length = q.length) :
    vecTotal (vecSub q v) = vecTotal q - vecTotal v := by
  induction v generalizing q with
  | nil => cases q <;> simp_all [vecTotal]
  | cons a as_ ih =>
    cases q with
    | nil => simp_all
    | cons b bs =>
      simp only [vecSub_cons, vecTotal, List.sum_cons] at *
      have := ih (q := bs) (by simpa using hlen)
      omega

theorem vecTotal_vecAdd {v s : Vec} (hlen : v.length = s.length) :
    vecTotal (vecAdd v s) = vecTotal v + vecTotal s := by
  induction v generalizing s with
  | nil => cases s <;> simp_all [vecAdd, vecTotal]
  | cons a as_ ih =>
    cases s with
    | nil => simp_all
    | cons b bs =>
      simp only [vecAdd_cons, vecTotal, List.sum_cons] at *
      have := ih (s := bs) (by simpa using hlen)
      omega

theorem vecTotal_le_of_lte {v q : Vec} (h : vecLte v q = true) (hlen : v.length = q.length) :
    vecTotal v ≤ vecTotal q := by
  induction v generalizing q with
  | nil => cases q <;> simp_all [vecTotal]
  | cons a as_ ih =>
    cases q with
    | nil => simp_all
    | cons b bs =>
      simp only [vecLte_cons, Bool.and_eq_true, decide_eq_true_eq] at h
      have := ih h.2 (by simpa using hlen)
      simp only [vecTotal, List.sum_cons] at *
      omega

theorem eq_replicate_of_total_zero {q : Vec} (hq : ∀ x ∈ q, 0 ≤ x)
    (h0 : vecTotal q = 0) : q = List.replicate q.length 0 := by
  induction q with
  | nil => rfl
  | cons a as_ ih =>
    have hs : 0 ≤ as_.sum := List.sum_nonneg fun x hx => hq x (List.mem_cons_of_mem _ hx)
    have ha : 0 ≤ a := hq a (List.mem_cons_self _ _)
    simp only [vecTotal, List.sum_cons] at h0
    have ha0 : a = 0 := by omega
    have has : vecTotal as_ = 0 := by simp only [vecTotal]; omega
    subst ha0
    rw [List.length_cons, List.replicate_succ]
    exact congrArg (List.cons 0) (ih (fun x hx => hq x (List.mem_cons_of_mem _ hx)) has)

theorem vecSumN_nil (n : Nat) : vecSumN n [] = List.replicate n 0 := rfl

theorem vecSumN_cons (n : Nat) (v : Vec) (ts : List Vec) :
    vecSumN n (v :: ts) = vecAdd v (vecSumN n ts) := rfl

theorem vecAdd_length (a b : Vec) : (vecAdd a b).length = min a.length b.length := by
  simp [vecAdd]

theorem vecSumN_length {n : Nat} {ts : List Vec} (h : ∀ v ∈ ts, v.length = n) :
    (vecSumN n ts).length = n := by
  induction ts with
  | nil => simp [vecSumN]
  | cons v vs ih =>
    rw [vecSumN_cons, vecAdd_length, h v (List.mem_cons_self _ _),
      ih fun w hw => h w (List.mem_cons_of_mem _ hw)]
    omega

theorem vecSumN_nonneg {n : Nat} {ts : List Vec} (h : ∀ v ∈ ts, ∀ x ∈ v, 0 ≤ x) :
    ∀ x ∈ vecSumN n ts, 0 ≤ x := by
  induction ts with
  | nil =>
    intro x hx
    rw [vecSumN_nil] at hx
    have := List.eq_of_mem_replicate hx
    omega
  | cons v vs ih =>
    rw [vecSumN_cons]
    have hv := h v (List.mem_cons_self _ _)
    have hvs := ih fun w hw => h w (List.mem_cons_of_mem _ hw)
    clear h ih
    generalize vecSumN n vs = s at hvs
    induction v generalizing s with
    | nil => simp [vecAdd]
    | cons a as_ ih2 =>
      cases s with
      | nil => simp [vecAdd]
      | cons b bs =>
        intro x hx
        simp only [vecAdd_cons, List.mem_cons] at hx
        rcases hx with h | h
        · have := hv a (List.mem_cons_self _ _)
          have := hvs b (List.mem_cons_self _ _)
          omega
        · exact ih2 (fun y hy => hv y (List.mem_cons_of_mem _ hy)) bs
            (fun y hy => hvs y (List.mem_cons_of_mem _ hy)) x h

theorem vecLte_of_eq_add {v s q : Vec} (hq : q = vecAdd v s) (hlen : v.length = s.length)
    (hs : ∀ x ∈ s, 0 ≤ x) : vecLte v q = true := by
  subst hq
  induction v generalizing s with
  | nil => simp
  | cons a as_ ih =>
    cases s with
    | nil => simp_all
    | cons b bs =>
      simp only [vecAdd_cons, vecLte_cons, Bool.and_eq_true, decide_eq_true_eq]
      refine ⟨by have := hs b (List.mem_cons_self _ _); omega, ?_⟩
      exact ih (by simpa using hlen) fun x hx => hs x (List.mem_cons_of_mem _ hx)

theorem vecSub_nonneg {v q : Vec} (h : vecLte v q = true) :
    ∀ x ∈ vecSub q v, 0 ≤ x := by
  induction v generalizing q with
  | nil => simp
  | cons a as_ ih =>
    cases q with
    | nil => simp
    | cons b bs =>
      simp only [vecLte_cons, Bool.and_eq_true, decide_eq_true_eq] at h
      intro x hx
      simp only [vecSub_cons, List.mem_cons] at hx
      rcases hx with hx | hx
      · omega
      · exact ih h.2 x hx

/-! Characterization of `queryLte`: soundness and completeness of the
dominance-range query, for arbitrary trees. -/


theorem queryLte_nil (p : Bool) (cs : List (Int × VectorSet)) (mv : Vec) :
    queryLte (.node p cs) [] mv = if p ∧ mv = [] then [[]] else [] := rfl

theorem queryLte_cons_nil (p : Bool) (cs : List (Int × VectorSet)) (q0 : Int) (qs : Vec) :
    queryLte (.node p cs) (q0 :: qs) [] =
      cs.flatMap fun vc =>
        if vc.1 ≤ q0 then (queryLte vc.2 qs []).map fun cv => vc.1 :: cv else [] := rfl

theorem queryLte_cons_cons (p : Bool) (cs : List (Int × VectorSet)) (q0 : Int) (qs : Vec)
    (m0 : Int) (ms : Vec) :
    queryLte (.node p cs) (q0 :: qs) (m0 :: ms) =
      cs.flatMap fun vc =>
        if vc.1 ≤ q0 ∧ m0 ≤ vc.1 then
          (queryLte vc.2 qs (if m0 < vc.1 then [] else ms)).map fun cv => vc.1 :: cv
        else [] := rfl

theorem memVec_node_cons (p : Bool) (cs : List (Int × VectorSet)) (a : Int) (v : Vec) :
    memVec (.node p cs) (a :: v) =
      cs.any fun bc => decide (bc.1 = a) && memVec bc.2 v := rfl

theorem mem_queryLte {q : Vec} : ∀ {t : VectorSet} {mv s : Vec},
    s ∈ queryLte t q mv ↔
      (memVec t s = true ∧ s.length = q.length ∧ vecLte s q = true ∧ lexLe mv s = true) := by
  induction q with
  | nil =>
    intro t mv s
    cases t with | node p cs =>
    rw [queryLte_nil]
    cases s with
    | nil =>
      constructor
      · intro h
        split at h
        next hp => exact ⟨hp.1, rfl, by simp, by simp [hp.2]⟩
        next hp => simp at h
      · rintro ⟨hm, -, -, hlex⟩
        have hmv : mv = [] := by simpa using hlex
        rw [if_pos ⟨by exact hm, hmv⟩]
        simp
    | cons a v =>
      constructor
      · intro h
        split at h <;> simp at h
      · rintro ⟨-, hlen, -, -⟩
        simp at hlen
  | cons q0 qs ih =>
    intro t mv s
    cases t with | node p cs =>
    cases mv with
    | nil =>
      rw [queryLte_cons_nil, List.mem_flatMap]
      cases s with
      | nil =>
        constructor
        · rintro ⟨vc, hvc, hmem⟩
          split at hmem <;> simp at hmem
        · rintro ⟨-, hlen, -, -⟩
          simp at hlen
      | cons a v =>
        constructor
        · rintro ⟨vc, hvc, hmem⟩
          by_cases hle : vc.1 ≤ q0
          · rw [if_pos hle] at hmem
            obtain ⟨cv, hcv, heq⟩ := List.mem_map.mp hmem
            injection heq with h1 h2
            subst h1; subst h2
            obtain ⟨hm, hl, hv, -⟩ := ih.mp hcv
            refine ⟨?_, by simp [hl], by simp [hle, hv], by simp⟩
            rw [memVec_node_cons]
            simp only [List.any_eq_true, Bool.and_eq_true, decide_eq_true_eq]
            exact ⟨vc, hvc, rfl, hm⟩
          · rw [if_neg hle] at hmem
            simp at hmem
        · rintro ⟨hmem, hlen, hlte, -⟩
          rw [memVec_node_cons] at hmem
          simp only [List.any_eq_true, Bool.and_eq_true, decide_eq_true_eq] at hmem
          obtain ⟨vc, hvc, hfst, hmemc⟩ := hmem
          simp only [vecLte_cons, Bool.and_eq_true, decide_eq_true_eq] at hlte
          refine ⟨vc, hvc, ?_⟩
          rw [if_pos (show vc.1 ≤ q0 by omega)]
          refine List.mem_map.mpr ⟨v, ih.mpr ⟨hmemc, by simpa using hlen, hlte.2, by simp⟩, ?_⟩
          rw [hfst]
    | cons m0 ms =>
      rw [queryLte_cons_cons, List.mem_flatMap]
      cases s with
      | nil =>
        constructor
        · rintro ⟨vc, hvc, hmem⟩
          split at hmem <;> simp at hmem
        · rintro ⟨-, hlen, -, -⟩
          simp at hlen
      | cons a v =>
        constructor
        · rintro ⟨vc, hvc, hmem⟩
          by_cases hcond : vc.1 ≤ q0 ∧ m0 ≤ vc.1
          · rw [if_pos hcond] at hmem
            obtain ⟨cv, hcv, heq⟩ := List.mem_map.mp hmem
            injection heq with h1 h2
            subst h1; subst h2
            obtain ⟨hm, hl, hv, hlex⟩ := ih.mp hcv
            refine ⟨?_, by simp [hl], by simp [hcond.1, hv], ?_⟩
            · rw [memVec_node_cons]
              simp only [List.any_eq_true, Bool.and_eq_true, decide_eq_true_eq]
              exact ⟨vc, hvc, rfl, hm⟩
            · simp only [lexLe]
              by_cases hlt : m0 < vc.1
              · rw [if_pos hlt]
              · rw [if_neg hlt, if_pos (show m0 = vc.1 by omega)]
                rw [if_neg hlt] at hlex
                exact hlex
          · rw [if_neg hcond] at hmem
            simp at hmem
        · rintro ⟨hmem, hlen, hlte, hlex⟩
          rw [memVec_node_cons] at hmem
          simp only [List.any_eq_true, Bool.and_eq_true, decide_eq_true_eq] at hmem
          obtain ⟨vc, hvc, hfst, hmemc⟩ := hmem
          simp only [vecLte_cons, Bool.and_eq_true, decide_eq_true_eq] at hlte
          simp only [lexLe] at hlex
          refine ⟨vc, hvc, ?_⟩
          by_cases hlt : m0 < a
          · rw [if_pos ⟨by omega, by omega⟩, show (if m0 < vc.1 then ([] : Vec) else ms) = []
              from if_pos (by omega)]
            refine List.mem_map.mpr ⟨v, ih.mpr ⟨hmemc, by simpa using hlen, hlte.2, by simp⟩, ?_⟩
            rw [hfst]
          · rw [if_neg hlt] at hlex
            by_cases heq : m0 = a
            · rw [if_pos heq] at hlex
              rw [if_pos ⟨by omega, by omega⟩, show (if m0 < vc.1 then ([] : Vec) else ms) = ms
                from if_neg (by omega)]
              refine List.mem_map.mpr ⟨v, ih.mpr ⟨hmemc, by simpa using hlen, hlte.2, hlex⟩, ?_⟩
              rw [hfst]
            · rw [if_neg heq] at hlex
              simp at hlex

/-! Membership after insertions: `addVec` adds exactly the inserted vector. -/

theorem memVec_emptyVS (s : Vec) : memVec emptyVS s = false := by
  cases s <;> rfl

theorem any_updateChild {v w' : Vec} {a b : Int} (g : VectorSet → VectorSet)
    (hg : ∀ c, memVec (g c) v = true ↔ (v = w' ∨ memVec c v = true)) (cs : List (Int × VectorSet)) :
    ((updateChild cs b g).any fun bc => decide (bc.1 = a) && memVec bc.2 v) = true ↔
      ((a = b ∧ v = w') ∨ (cs.any fun bc => decide (bc.1 = a) && memVec bc.2 v) = true) := by
  induction cs with
  | nil =>
    simp only [updateChild, List.any_cons, List.any_nil, Bool.or_false, Bool.and_eq_true,
      decide_eq_true_eq, hg, memVec_emptyVS]
    constructor
    · rintro ⟨h1, h2 | h2⟩
      · exact Or.inl ⟨h1.symm, h2⟩
      · simp at h2
    · rintro (⟨h1, h2⟩ | h)
      · exact ⟨h1.symm, Or.inl h2⟩
      · simp at h
  | cons hd rest ihc =>
    obtain ⟨k, c⟩ := hd
    simp only [updateChild]
    by_cases hkb : k = b
    · rw [if_pos hkb]
      subst hkb
      simp only [List.any_cons, Bool.or_eq_true, Bool.and_eq_true, decide_eq_true_eq, hg]
      constructor
      · rintro (⟨h1, h2 | h2⟩ | h)
        · exact Or.inl ⟨h1.symm, h2⟩
        · exact Or.inr (Or.inl ⟨h1, h2⟩)
        · exact Or.inr (Or.inr h)
      · rintro (⟨h1, h2⟩ | ⟨h1, h2⟩ | h)
        · exact Or.inl ⟨h1.symm, Or.inl h2⟩
        · exact Or.inl ⟨h1, Or.inr h2⟩
        · exact Or.inr h
    · rw [if_neg hkb]
      simp only [List.any_cons, Bool.or_eq_true, Bool.and_eq_true, decide_eq_true_eq, ihc]
      tauto

theorem memVec_addVec {w : Vec} : ∀ {t : VectorSet} {s : Vec},
    memVec (addVec t w) s = true ↔ (s = w ∨ memVec t s = true) := by
  induction w with
  | nil =>
    intro t s
    cases t with | node p cs =>
    cases s with
    | nil => simp [addVec, memVec]
    | cons a v => simp [addVec, memVec_node_cons]
  | cons b w' ih =>
    intro t s
    cases t with | node p cs =>
    cases s with
    | nil => simp [addVec, memVec]
    | cons a v =>
      show (memVec (.node p (updateChild cs b fun c => addVec c w')) (a :: v)) = true ↔ _
      rw [memVec_node_cons, memVec_node_cons,
        any_updateChild (fun c => addVec c w') (fun c => ih) cs]
      simp [List.cons_eq_cons]

theorem memVec_buildTree {M : List Vec} {s : Vec} :
    memVec (buildTree M) s = true ↔ s ∈ M := by
  have key : ∀ (M : List Vec) (t : VectorSet),
      memVec (M.foldl addVec t) s = true ↔ (s ∈ M ∨ memVec t s = true) := by
    intro M
    induction M with
    | nil => simp
    | cons v vs ih =>
      intro t
      rw [List.foldl_cons, ih (addVec t v)]
      rw [memVec_addVec]
      simp only [List.mem_cons]
      tauto
  rw [buildTree, key, memVec_emptyVS]
  simp

/-! Well-formedness facts: `WFVS` holds for every tree built with `addVec`
and gives duplicate-freeness of `queryLte` results. -/

theorem WFVS_emptyVS : WFVS emptyVS :=
  .node false [] (by simp) (by simp)

theorem keys_updateChild (cs : List (Int × VectorSet)) (b : Int) (g : VectorSet → VectorSet) :
    (updateChild cs b g).map Prod.fst =
      if b ∈ cs.map Prod.fst then cs.map Prod.fst else cs.map Prod.fst ++ [b] := by
  induction cs with
  | nil => simp [updateChild]
  | cons hd rest ih =>
    obtain ⟨k, c⟩ := hd
    simp only [updateChild]
    by_cases hkb : k = b
    · rw [if_pos hkb]
      subst hkb
      simp
    · rw [if_neg hkb]
      simp only [List.map_cons, ih]
      by_cases hmem : b ∈ rest.map Prod.fst
      · rw [if_pos hmem, if_pos (by simp [hmem])]
      · rw [if_neg hmem, if_neg (by
          simp only [List.mem_cons, not_or]
          exact ⟨fun h => hkb h.symm, hmem⟩)]
        simp

theorem mem_updateChild {cs : List (Int × VectorSet)} {b : Int} {g : VectorSet → VectorSet}
    {bc : Int × VectorSet} (h : bc ∈ updateChild cs b g) :
    bc ∈ cs ∨ ∃ c, ((b, c) ∈ cs ∨ c = emptyVS) ∧ bc = (b, g c) := by
  induction cs with
  | nil =>
    simp only [updateChild, List.mem_singleton] at h
    exact Or.inr ⟨emptyVS, Or.inr rfl, h⟩
  | cons hd rest ih =>
    obtain ⟨k, c⟩ := hd
    simp only [updateChild] at h
    by_cases hkb : k = b
    · rw [if_pos hkb] at h
      subst hkb
      rcases List.mem_cons.mp h with h | h
      · exact Or.inr ⟨c, Or.inl (List.mem_cons_self _ _), h⟩
      · exact Or.inl (List.mem_cons_of_mem _ h)
    · rw [if_neg hkb] at h
      rcases List.mem_cons.mp h with h | h
      · exact Or.inl (h ▸ List.mem_cons_self _ _)
      · rcases ih h with h | ⟨c', hc', heq⟩
        · exact Or.inl (List.mem_cons_of_mem _ h)
        · rcases hc' with hc' | hc'
          · exact Or.inr ⟨c', Or.inl (List.mem_cons_of_mem _ hc'), heq⟩
          · exact Or.inr ⟨c', Or.inr hc', heq⟩

theorem WFVS_addVec {w : Vec} : ∀ {t : VectorSet}, WFVS t → WFVS (addVec t w) := by
  induction w with
  | nil =>
    rintro t ⟨p, cs, hkeys, hch⟩
    exact .node true cs hkeys hch
  | cons b w' ih =>
    rintro t ⟨p, cs, hkeys, hch⟩
    refine .node p _ ?_ ?_
    · rw [keys_updateChild]
      split
      · exact hkeys
      next hb =>
        refine List.Nodup.append hkeys (List.nodup_singleton b) ?_
        intro a ha hb2
        rw [List.mem_singleton] at hb2
        subst hb2
        exact hb ha
    · intro bc hbc
      rcases mem_updateChild hbc with h | ⟨c, hc, heq⟩
      · exact hch bc h
      · subst heq
        rcases hc with hc | hc
        · exact ih (hch (b, c) hc)
        · subst hc
          exact ih WFVS_emptyVS

theorem WFVS_buildTree (M : List Vec) : WFVS (buildTree M) := by
  have key : ∀ (M : List Vec) (t : VectorSet), WFVS t → WFVS (M.foldl addVec t) := by
    intro M
    induction M with
    | nil => exact fun t h => h
    | cons v vs ih => exact fun t h => ih (addVec t v) (WFVS_addVec h)
  exact key M emptyVS WFVS_emptyVS

theorem nodup_flatMap_heads {cs : List (Int × VectorSet)} {F : Int × VectorSet → List Vec}
    (keysnd : (cs.map Prod.fst).Nodup)
    (hshape : ∀ vc ∈ cs, ∀ s ∈ F vc, ∃ cv, s = vc.1 :: cv)
    (hnd : ∀ vc ∈ cs, (F vc).Nodup) : (cs.flatMap F).Nodup := by
  rw [List.nodup_flatMap]
  refine ⟨hnd, ?_⟩
  have hp : cs.Pairwise fun x y => x.1 ≠ y.1 := by
    rw [← List.pairwise_map]
    exact keysnd
  refine List.Pairwise.imp_of_mem ?_ hp
  intro x y hx hy hne s hs1 hs2
  obtain ⟨cv1, h1⟩ := hshape x hx s hs1
  obtain ⟨cv2, h2⟩ := hshape y hy s hs2
  rw [h1] at h2
  injection h2 with h2 htl
  exact hne h2

theorem queryLte_nodup {q : Vec} : ∀ {t : VectorSet} {mv : Vec},
    WFVS t → (queryLte t q mv).Nodup := by
  induction q with
  | nil =>
    intro t mv hwf
    cases t with | node p cs =>
    rw [queryLte_nil]
    split <;> simp
  | cons q0 qs ih =>
    rintro t mv ⟨p, cs, hkeys, hch⟩
    cases mv with
    | nil =>
      rw [queryLte_cons_nil]
      refine nodup_flatMap_heads hkeys ?_ ?_
      · intro vc hvc s hs
        split at hs
        · obtain ⟨cv, -, heq⟩ := List.mem_map.mp hs
          exact ⟨cv, heq.symm⟩
        · simp at hs
      · intro vc hvc
        split
        · exact (ih (hch vc hvc)).map fun x y h => by injection h
        · simp
    | cons m0 ms =>
      rw [queryLte_cons_cons]
      refine nodup_flatMap_heads hkeys ?_ ?_
      · intro vc hvc s hs
        split at hs
        · obtain ⟨cv, -, heq⟩ := List.mem_map.mp hs
          exact ⟨cv, heq.symm⟩
        · simp at hs
      · intro vc hvc
        split
        · exact (ih (hch vc hvc)).map fun x y h => by injection h
        · simp

/-! Properties of `optJoin` and of the fueled combination search. -/

theorem optJoin_eq_none {α : Type} {L : List (Option (List α))} :
    optJoin L = none ↔ none ∈ L := by
  induction L with
  | nil => simp [optJoin]
  | cons o rest ih =>
    cases o with
    | none => simp [optJoin]
    | some xs => simp [optJoin, ih]

theorem mem_optJoin {α : Type} : ∀ {L : List (Option (List α))} {r : List α},
    optJoin L = some r → ∀ {x : α}, (x ∈ r ↔ ∃ xs, some xs ∈ L ∧ x ∈ xs) := by
  intro L
  induction L with
  | nil =>
    intro r h x
    simp only [optJoin, Option.some.injEq] at h
    subst h
    simp
  | cons o rest ih =>
    intro r h x
    cases o with
    | none => simp [optJoin] at h
    | some xs =>
      simp only [optJoin, Option.map_eq_some'] at h
      obtain ⟨r', hr', rfl⟩ := h
      rw [List.mem_append, ih hr']
      constructor
      · rintro (h | ⟨ys, hys, hx⟩)
        · exact ⟨xs, by simp, h⟩
        · exact ⟨ys, by simp [hys], hx⟩
      · rintro ⟨ys, hys, hx⟩
        rcases List.mem_cons.mp hys with hys | hys
        · injection hys with hys
          subst hys
          exact Or.inl hx
        · exact Or.inr ⟨ys, hys, hx⟩

theorem optJoin_nodup {α : Type} : ∀ {L : List (Option (List α))} {r : List α},
    optJoin L = some r → (∀ xs, some xs ∈ L → xs.Nodup) →
    L.Pairwise (fun o o' => ∀ xs ys, o = some xs → o' = some ys → xs.Disjoint ys) →
    r.Nodup := by
  intro L
  induction L with
  | nil =>
    intro r h _ _
    simp only [optJoin, Option.some.injEq] at h
    subst h
    simp
  | cons o rest ih =>
    intro r h hnd hpw
    cases o with
    | none => simp [optJoin] at h
    | some xs =>
      simp only [optJoin, Option.map_eq_some'] at h
      obtain ⟨r', hr', rfl⟩ := h
      rcases List.pairwise_cons.mp hpw with ⟨hhead, htail⟩
      refine List.Nodup.append (hnd xs (by simp)) ?_ ?_
      · exact ih hr' (fun ys hys => hnd ys (List.mem_cons_of_mem _ hys)) htail
      · intro a ha har'
        obtain ⟨ys, hys, hay⟩ := (mem_optJoin hr').mp har'
        exact hhead ys hys xs ys rfl rfl ha hay

theorem findAnagramVecsF_succ (fuel : Nat) (tree : VectorSet) (q mv : Vec) :
    findAnagramVecsF (fuel + 1) tree q mv =
      if vecTotal q = 0 then some [[]]
      else
        optJoin ((queryLte tree q mv).map fun vec =>
          (findAnagramVecsF fuel tree (vecSub q vec) vec).map fun anagrams =>
            anagrams.map fun anagram => vec :: anagram) := rfl

/-- Exactness core: every tuple yielded by the fueled combination search over
a non-negative query vector sums component-wise to the query vector. -/
theorem findAnagramVecs_sum : ∀ (fuel : Nat) {tree : VectorSet} {q mv : Vec}
    {l : List (List Vec)}, (∀ x ∈ q, (0 : Int) ≤ x) →
    findAnagramVecsF fuel tree q mv = some l → ∀ ts ∈ l, vecSumN q.length ts = q := by
  intro fuel
  induction fuel with
  | zero =>
    intro tree q mv l hq h
    simp [findAnagramVecsF] at h
  | succ fuel ih =>
    intro tree q mv l hq h ts hts
    rw [findAnagramVecsF_succ] at h
    split at h
    next h0 =>
      obtain rfl := Option.some.inj h
      obtain rfl : ts = [] := by simpa using hts
      rw [vecSumN_nil]
      exact (eq_replicate_of_total_zero hq h0).symm
    next h0 =>
      obtain ⟨xs, hxs, hmem⟩ := (mem_optJoin h).mp hts
      obtain ⟨vec, hvec, hg⟩ := List.mem_map.mp hxs
      obtain ⟨sub, hsub, rfl⟩ := Option.map_eq_some'.mp hg
      obtain ⟨ts', hts', rfl⟩ := List.mem_map.mp hmem
      obtain ⟨hm, hlen, hlte, hlex⟩ := mem_queryLte.mp hvec
      have hq' : ∀ x ∈ vecSub q vec, (0 : Int) ≤ x := vecSub_nonneg hlte
      have hsum := ih hq' hsub ts' hts'
      have hlensub : (vecSub q vec).length = q.length := by
        rw [vecSub_length, hlen]
        simp
      rw [hlensub] at hsum
      rw [vecSumN_cons, hsum]
      exact vecAdd_vecSub_cancel hlen hlte

/-- Order core: every yielded tuple is a `lexLe`-chain starting at the lower
bound vector (so tuples of the top-level call are non-decreasing). -/
theorem findAnagramVecs_chain : ∀ (fuel : Nat) {tree : VectorSet} {q mv : Vec}
    {l : List (List Vec)}, findAnagramVecsF fuel tree q mv = some l →
    ∀ ts ∈ l, List.Chain lexLeP mv ts := by
  intro fuel
  induction fuel with
  | zero =>
    intro tree q mv l h
    simp [findAnagramVecsF] at h
  | succ fuel ih =>
    intro tree q mv l h ts hts
    rw [findAnagramVecsF_succ] at h
    split at h
    next h0 =>
      obtain rfl := Option.some.inj h
      obtain rfl : ts = [] := by simpa using hts
      exact List.Chain.nil
    next h0 =>
      obtain ⟨xs, hxs, hmem⟩ := (mem_optJoin h).mp hts
      obtain ⟨vec, hvec, hg⟩ := List.mem_map.mp hxs
      obtain ⟨sub, hsub, rfl⟩ := Option.map_eq_some'.mp hg
      obtain ⟨ts', hts', rfl⟩ := List.mem_map.mp hmem
      obtain ⟨-, -, -, hlex⟩ := mem_queryLte.mp hvec
      exact List.Chain.cons hlex (ih hsub ts' hts')

/-- Duplicate-freeness core: over a well-formed tree the fueled search yields
a duplicate-free list of tuples. -/
theorem findAnagramVecs_nodup : ∀ (fuel : Nat) {tree : VectorSet} {q mv : Vec}
    {l : List (List Vec)}, WFVS tree → findAnagramVecsF fuel tree q mv = some l →
    l.Nodup := by
  intro fuel
  induction fuel with
  | zero =>
    intro tree q mv l hwf h
    simp [findAnagramVecsF] at h
  | succ fuel ih =>
    intro tree q mv l hwf h
    rw [findAnagramVecsF_succ] at h
    split at h
    next h0 =>
      obtain rfl := Option.some.inj h
      simp
    next h0 =>
      refine optJoin_nodup h ?_ ?_
      · intro xs hxs
        obtain ⟨vec, hvec, hg⟩ := List.mem_map.mp hxs
        obtain ⟨sub, hsub, rfl⟩ := Option.map_eq_some'.mp hg
        exact (ih hwf hsub).map fun x y hxy => by injection hxy
      · rw [List.pairwise_map]
        refine List.Pairwise.imp ?_ (queryLte_nodup hwf)
        intro v v' hne xs ys hxs hys a ha hay
        obtain ⟨sub, hsub, rfl⟩ := Option.map_eq_some'.mp hxs
        obtain ⟨sub', hsub', rfl⟩ := Option.map_eq_some'.mp hys
        obtain ⟨t1, ht1, rfl⟩ := List.mem_map.mp ha
        obtain ⟨t2, ht2, heq⟩ := List.mem_map.mp hay
        injection heq with h1 h2
        exact hne h1.symm

/-- The query total strictly decreases over a recursive call when the found
vector has positive total. -/
theorem findAnagramVecs_total_lt {tree : VectorSet} {q mv vec : Vec}
    (h : vec ∈ queryLte tree q mv) (hpos : 0 < vecTotal vec) :
    vecTotalNat (vecSub q vec) < vecTotalNat q := by
  obtain ⟨-, hlen, hlte, -⟩ := mem_queryLte.mp h
  have hle := vecTotal_le_of_lte hlte hlen
  have := vecTotal_vecSub hlen
  unfold vecTotalNat
  omega

/-- Termination core: when every stored vector has positive component total,
fuel exceeding the query total suffices for the search to finish. -/
theorem findAnagramVecs_terminates : ∀ (fuel : Nat) {tree : VectorSet} {q mv : Vec},
    (∀ v, memVec tree v = true → 0 < vecTotal v) → vecTotalNat q < fuel →
    ∃ l, findAnagramVecsF fuel tree q mv = some l := by
  intro fuel
  induction fuel with
  | zero =>
    intro tree q mv htree hfuel
    omega
  | succ fuel ih =>
    intro tree q mv htree hfuel
    rw [findAnagramVecsF_succ]
    split
    next => exact ⟨[[]], rfl⟩
    next h0 =>
      rw [← Option.ne_none_iff_exists']
      intro hnone
      rw [optJoin_eq_none] at hnone
      obtain ⟨vec, hvec, hg⟩ := List.mem_map.mp hnone
      rw [Option.map_eq_none'] at hg
      have hmem := (mem_queryLte.mp hvec).1
      have hlt := findAnagramVecs_total_lt hvec (htree vec hmem)
      obtain ⟨l, hl⟩ := @ih tree (vecSub q vec) vec htree (by omega)
      rw [hl] at hg
      exact Option.noConfusion hg

/-- Completeness core: over a tree whose stored vectors all have positive
total, every non-decreasing (relative to the lower bound `mv`) tuple of
stored non-negative vectors summing to the query is among the yields. -/
theorem findAnagramVecs_complete : ∀ (fuel : Nat) {tree : VectorSet} {q mv : Vec}
    {ts : List Vec},
    (∀ v, memVec tree v = true → 0 < vecTotal v) →
    (∀ v ∈ ts, memVec tree v = true ∧ v.length = q.length ∧ ∀ x ∈ v, (0 : Int) ≤ x) →
    List.Chain lexLeP mv ts →
    vecSumN q.length ts = q →
    vecTotalNat q < fuel →
    ∃ l, findAnagramVecsF fuel tree q mv = some l ∧ ts ∈ l := by
  intro fuel
  induction fuel with
  | zero =>
    intro tree q mv ts htree hts hchain hsum hfuel
    omega
  | succ fuel ih =>
    intro tree q mv ts htree hts hchain hsum hfuel
    cases ts with
    | nil =>
      have h0 : vecTotal q = 0 := by
        rw [← hsum, vecSumN_nil]
        simp [vecTotal]
      rw [findAnagramVecsF_succ, if_pos h0]
      exact ⟨[[]], rfl, by simp⟩
    | cons v ts' =>
      obtain ⟨hmv, hlenv, hnnv⟩ := hts v (List.mem_cons_self _ _)
      have hts' : ∀ w ∈ ts', memVec tree w = true ∧ w.length = q.length ∧
          ∀ x ∈ w, (0 : Int) ≤ x := fun w hw => hts w (List.mem_cons_of_mem _ hw)
      have hSlen : (vecSumN q.length ts').length = q.length :=
        vecSumN_length fun w hw => (hts' w hw).2.1
      have hSnn : ∀ x ∈ vecSumN q.length ts', (0 : Int) ≤ x :=
        vecSumN_nonneg fun w hw => (hts' w hw).2.2
      have hvS : q = vecAdd v (vecSumN q.length ts') := by
        conv_lhs => rw [← hsum, vecSumN_cons]
      have hlte : vecLte v q = true :=
        vecLte_of_eq_add hvS (hlenv.trans hSlen.symm) hSnn
      have h0 : ¬vecTotal q = 0 := by
        have h1 := vecTotal_vecAdd (v := v) (s := vecSumN q.length ts')
          (hlenv.trans hSlen.symm)
        rw [← hvS] at h1
        have h2 : 0 < vecTotal v := htree v hmv
        have h3 : 0 ≤ vecTotal (vecSumN q.length ts') := List.sum_nonneg hSnn
        omega
      rcases hchain with _ | ⟨hrel, hchain'⟩
      have hvq : v ∈ queryLte tree q mv := mem_queryLte.mpr ⟨hmv, hlenv, hlte, hrel⟩
      have hsub_q : vecSub q v = vecSumN q.length ts' := by
        conv_lhs => rw [hvS]
        exact vecSub_vecAdd_cancel (hlenv.trans hSlen.symm)
      have hlen_sub : (vecSub q v).length = q.length := by
        rw [vecSub_length, hlenv]
        simp
      have hlt := findAnagramVecs_total_lt hvq (htree v hmv)
      obtain ⟨l', hl', htsmem⟩ := @ih tree (vecSub q v) v ts' htree
        (fun w hw => ⟨(hts' w hw).1, by rw [hlen_sub]; exact (hts' w hw).2.1, (hts' w hw).2.2⟩)
        hchain' (by rw [hlen_sub, hsub_q]) (by omega)
      obtain ⟨l, hl⟩ := findAnagramVecs_terminates (fuel + 1) htree hfuel
      refine ⟨l, hl, ?_⟩
      rw [findAnagramVecsF_succ, if_neg h0] at hl
      refine (mem_optJoin hl).mpr ⟨l'.map fun anagram => v :: anagram, ?_, ?_⟩
      · refine List.mem_map.mpr ⟨v, hvq, ?_⟩
        rw [hl']
        rfl
      · exact List.mem_map.mpr ⟨ts', htsmem, rfl⟩

/-! Claim theorems for the combination search and the dominance query. -/

/-- C1 (Combination exactness): for every query vector `q` — a signature,
hence component-wise non-negative — every tuple `ts` yielded by the
combination search over any signature index sums component-wise exactly to
`q`. -/
theorem combination_exactness {fuel : Nat} {tree : VectorSet} {q mv : Vec}
    {l : List (List Vec)} {ts : List Vec}
    (hq : ∀ x ∈ q, (0 : Int) ≤ x)
    (hrun : findAnagramVecsF fuel tree q mv = some l) (hts : ts ∈ l) :
    vecSumN q.length ts = q :=
  findAnagramVecs_sum fuel hq hrun ts hts

theorem combination_exactness_witness : vecSumN 1 [[1], [1]] = [2] :=
  combination_exactness (by decide)
    (show findAnagramVecsF 3 (buildTree [[1]]) [2] [] = some [[[1], [1]]] by decide)
    (by decide)

/-- C3 (Dominance-query correctness): over the index built from any list of
signatures of one common length `n`, for a query `q` of length `n` and a
lower bound `b` that is empty or of length `n`, a member signature `s` is
yielded by `queryLte q b` iff `s` is component-wise at most `q` and
lexicographically at least `b`; and when no member qualifies, the result is
the empty sequence (the function is total — no error). -/
theorem dominance_query_correct {M : List Vec} {q b s : Vec} {n : Nat}
    (hM : ∀ v ∈ M, v.length = n) (hq : q.length = n) (hb : b = [] ∨ b.length = n) :
    (s ∈ queryLte (buildTree M) q b ↔
      (s ∈ M ∧ vecLte s q = true ∧ lexLe b s = true)) ∧
    ((∀ v ∈ M, ¬(vecLte v q = true ∧ lexLe b v = true)) →
      queryLte (buildTree M) q b = []) := by
  have hiff : ∀ s' : Vec, s' ∈ queryLte (buildTree M) q b ↔
      (s' ∈ M ∧ vecLte s' q = true ∧ lexLe b s' = true) := by
    intro s'
    rw [mem_queryLte, memVec_buildTree]
    constructor
    · rintro ⟨h1, h2, h3, h4⟩
      exact ⟨h1, h3, h4⟩
    · rintro ⟨h1, h2, h3⟩
      exact ⟨h1, by rw [hM s' h1, hq], h2, h3⟩
  refine ⟨hiff s, fun hnone => ?_⟩
  rw [List.eq_nil_iff_forall_not_mem]
  intro s' hs'
  obtain ⟨h1, h2, h3⟩ := (hiff s').mp hs'
  exact hnone s' h1 ⟨(hiff s').mp hs' |>.2.1, (hiff s').mp hs' |>.2.2⟩

theorem dominance_query_correct_witness :
    ([1, 0] ∈ queryLte (buildTree [[1, 0], [0, 1]]) [1, 0] [] ↔
      ([1, 0] ∈ ([[1, 0], [0, 1]] : List Vec) ∧ vecLte [1, 0] [1, 0] = true ∧
        lexLe [] [1, 0] = true)) ∧
    ((∀ v ∈ [[1, 0], [0, 1]], ¬(vecLte v [1, 0] = true ∧ lexLe [] v = true)) →
      queryLte (buildTree [[1, 0], [0, 1]]) [1, 0] [] = []) :=
  dominance_query_correct (M := [[1, 0], [0, 1]]) (q := [1, 0]) (b := [])
    (s := [1, 0]) (n := 2) (by decide) (by decide) (Or.inl rfl)

/-- C4 (No-duplicate-multiset): the combination search never yields two
distinct tuples that are permutations of each other — every yielded tuple is
non-decreasing under the lexicographic order, the yield list is
duplicate-free, and any two yielded tuples that are permutations of each
other are equal (each qualifying multiset appears at most once). -/
theorem no_duplicate_multiset {fuel : Nat} {M : List Vec} {q : Vec}
    {l : List (List Vec)}
    (hrun : findAnagramVecsF fuel (buildTree M) q [] = some l) :
    (∀ ts ∈ l, List.Chain' lexLeP ts) ∧ l.Nodup ∧
      ∀ ts1 ∈ l, ∀ ts2 ∈ l, ts1.Perm ts2 → ts1 = ts2 := by
  haveI : IsTrans Vec lexLeP := ⟨fun _ _ _ => lexLe_trans⟩
  haveI : IsAntisymm Vec lexLeP := ⟨fun _ _ => lexLe_antisymm⟩
  have hchain : ∀ ts ∈ l, List.Chain' lexLeP ts := by
    intro ts hts
    have h := findAnagramVecs_chain fuel hrun ts hts
    cases ts with
    | nil => trivial
    | cons v ts' =>
      rcases h with _ | ⟨hrel, h⟩
      exact h
  have hsorted : ∀ ts ∈ l, List.Sorted lexLeP ts := fun ts hts =>
    List.chain'_iff_pairwise.mp (hchain ts hts)
  exact ⟨hchain, findAnagramVecs_nodup fuel (WFVS_buildTree M) hrun,
    fun ts1 h1 ts2 h2 hperm =>
      List.eq_of_perm_of_sorted hperm (hsorted ts1 h1) (hsorted ts2 h2)⟩

theorem no_duplicate_multiset_witness : List.Chain' lexLeP [[1], [1]] :=
  (no_duplicate_multiset
    (show findAnagramVecsF 3 (buildTree [[1]]) [2] [] = some [[[1], [1]]] by decide)).1
    [[1], [1]] (by decide)

/-- C2 counterexample: the completeness claim fails as stated once the zero
signature is indexed.  With the zero signature as the only member and the
zero query, the one-element multiset made of the zero signature sums to the
query, yet the search yields only the empty tuple and misses it. -/
theorem combination_completeness_cex :
    findAnagramVecsF 5 (buildTree [List.replicate 26 (0 : Int)])
        (List.replicate 26 (0 : Int)) [] = some [[]] ∧
    vecSumN 26 [List.replicate 26 (0 : Int)] = List.replicate 26 (0 : Int) ∧
    [List.replicate 26 (0 : Int)] ∉ ([[]] : List (List Vec)) :=
  ⟨by decide, by decide, by decide⟩

/-- C2 amended (Completeness): provided every indexed signature is
component-wise non-negative with positive total — no zero signature, which
holds for signatures of non-empty words — the combination search yields the
non-decreasing arrangement of every multiset of indexed signatures (with
repetition) summing component-wise to the query; no such multiset is
missed. -/
theorem combination_completeness {M : List Vec} {q : Vec} {ts : List Vec}
    (hM : ∀ v ∈ M, v.length = q.length ∧ (∀ x ∈ v, (0 : Int) ≤ x) ∧ 0 < vecTotal v)
    (hts : ∀ v ∈ ts, v ∈ M) (hsorted : List.Chain' lexLeP ts)
    (hsum : vecSumN q.length ts = q) :
    ∃ l, findAnagramVecsF (vecTotalNat q + 1) (buildTree M) q [] = some l ∧ ts ∈ l := by
  refine findAnagramVecs_complete _ ?_ ?_ ?_ hsum (by omega)
  · intro v hv
    rw [memVec_buildTree] at hv
    exact (hM v hv).2.2
  · intro v hv
    have hvM := hts v hv
    exact ⟨memVec_buildTree.mpr hvM, (hM v hvM).1, (hM v hvM).2.1⟩
  · cases ts with
    | nil => exact List.Chain.nil
    | cons v ts' => exact List.Chain.cons (by simp [lexLeP]) hsorted

theorem combination_completeness_witness :
    ∃ l, findAnagramVecsF 3 (buildTree [[1]]) [2] [] = some l ∧ [[1], [1]] ∈ l :=
  combination_completeness (by decide) (by decide)
    (by exact List.Chain.cons (by decide) List.Chain.nil) (by decide)

/-- C5 evidence: neither `queryLte` nor the combination search sorts its
output — children are iterated in dict order (insertion order in the
model; hash order in the Python-2 source), so ascending lexicographic
output order fails, contradicting the `_find_anagram_vecs` docstring "The
tuples are given in ascending order".  Inserting sig("A") then sig("B")
and querying sig("AB") yields sig("A") before the lexicographically
smaller sig("B"); on members {sig("A"), sig("B"), sig("AB")} the search
yields the tuple (sig("AB")) before the lexicographically smaller tuple
(sig("B"), sig("A")). -/
theorem query_order_not_ascending :
    queryLte (buildTree [makeVec "A", makeVec "B"]) (makeVec "AB") [] =
      [makeVec "A", makeVec "B"] ∧
    lexLe (makeVec "B") (makeVec "A") = true ∧ makeVec "B" ≠ makeVec "A" ∧
    findAnagramVecsF 3 (buildTree [makeVec "A", makeVec "B", makeVec "AB"])
        (makeVec "AB") [] =
      some [[makeVec "AB"], [makeVec "B", makeVec "A"]] ∧
    lexLe (makeVec "B") (makeVec "AB") = true ∧ makeVec "B" ≠ makeVec "AB" :=
  ⟨by decide, by decide, by decide, by decide, by decide, by decide⟩

/-! Word-expansion order (C6). -/

theorem flatMap_getElem_uniform {α β : Type} {f : α → List β} {k : Nat}
    (hk : ∀ a, (f a).length = k) : ∀ (l : List α) (i j : Nat), j < k →
    (l.flatMap f)[i * k + j]? = l[i]?.bind fun a => (f a)[j]? := by
  intro l
  induction l with
  | nil => simp
  | cons a rest ih =>
    intro i j hj
    cases i with
    | zero =>
      rw [List.flatMap_cons, Nat.zero_mul, Nat.zero_add,
        List.getElem?_append_left (by rw [hk]; exact hj), List.getElem?_cons_zero]
      rfl
    | succ i =>
      rw [List.flatMap_cons,
        show (i + 1) * k + j = (f a).length + (i * k + j) by rw [hk]; ring,
        List.getElem?_append_right (by omega), Nat.add_sub_cancel_left,
        ih i j hj, List.getElem?_cons_succ]

/-- C6 counterexample: the expansion's outer loop is the recursively
expanded tail, not the head word list.  With head word list ["A", "B"] (in
stored order) and tail expansions ("C") then ("D"), the word tuple
("B", "C") — beginning with the later head word — is yielded before the
word tuple ("A", "D") — beginning with the earlier head word — so
head-outer-loop order fails. -/
theorem expansion_order_cex :
    expandAnagramVecs dEx [[1], [2]] =
      [["A", "C"], ["B", "C"], ["A", "D"], ["B", "D"]] ∧
    expandAnagramVecs dEx [[1], [2]] ≠
      [["A", "C"], ["A", "D"], ["B", "C"], ["B", "D"]] :=
  ⟨by decide, by decide⟩

/-- C6 amended (Word-expansion order): for the empty tuple exactly one
empty word tuple is yielded; for a non-empty tuple the code iterates the
recursively expanded tail as the outer loop and the head vector's word
list, in its stored order, as the inner loop: the word tuple combining
tail expansion number `i` with head word number `j` appears at position
`i * |words(head)| + j`.  Word tuples sharing a tail are contiguous with
their head words in stored order (head-major order does not hold, see the
counterexample). -/
theorem expansion_order (d : Vec → List String) (v : Vec) (vs : List Vec)
    (i j : Nat) (tail : List String) (w : String)
    (htail : (expandAnagramVecs d vs)[i]? = some tail)
    (hw : (d v)[j]? = some w) :
    expandAnagramVecs d [] = [[]] ∧
    (expandAnagramVecs d (v :: vs))[i * (d v).length + j]? = some (w :: tail) := by
  refine ⟨rfl, ?_⟩
  obtain ⟨hj, -⟩ := List.getElem?_eq_some_iff.mp hw
  show ((expandAnagramVecs d vs).flatMap fun t => (d v).map fun x => x :: t)[_]? = _
  rw [flatMap_getElem_uniform (fun t => by simp) (expandAnagramVecs d vs) i j hj, htail]
  simp only [Option.bind_some, List.getElem?_map, hw, Option.map_some']
  rfl

theorem expansion_order_witness :
    expandAnagramVecs dEx [] = [[]] ∧
    (expandAnagramVecs dEx [[1], [2]])[2]? = some ["A", "D"] :=
  expansion_order dEx [1] [[2]] 1 0 ["D"] "A" (by decide) (by decide)

/-! Deduplication facts about `firstDedup` and the loaded words. -/

theorem firstDedup_invariant {α : Type} [DecidableEq α] :
    ∀ (l acc : List α) (x : α),
      x ∈ l.foldl (fun acc w => if w ∈ acc then acc else acc ++ [w]) acc ↔
        (x ∈ acc ∨ x ∈ l) := by
  intro l
  induction l with
  | nil => simp
  | cons a rest ih =>
    intro acc x
    rw [List.foldl_cons, ih]
    by_cases ha : a ∈ acc
    · rw [if_pos ha]
      simp only [List.mem_cons]
      constructor
      · rintro (h | h)
        · exact Or.inl h
        · exact Or.inr (Or.inr h)
      · rintro (h | h | h)
        · exact Or.inl h
        · exact Or.inl (h ▸ ha)
        · exact Or.inr h
    · rw [if_neg ha]
      simp only [List.mem_append, List.mem_singleton, List.mem_cons]
      tauto

theorem mem_firstDedup {α : Type} [DecidableEq α] {l : List α} {x : α} :
    x ∈ firstDedup l ↔ x ∈ l := by
  rw [firstDedup, firstDedup_invariant]
  simp

theorem firstDedup_nodup {α : Type} [DecidableEq α] (l : List α) :
    (firstDedup l).Nodup := by
  suffices h : ∀ (l acc : List α), acc.Nodup →
      (l.foldl (fun acc w => if w ∈ acc then acc else acc ++ [w]) acc).Nodup by
    exact h l [] (by simp)
  intro l
  induction l with
  | nil => exact fun acc h => h
  | cons a rest ih =>
    intro acc hacc
    rw [List.foldl_cons]
    by_cases ha : a ∈ acc
    · rw [if_pos ha]
      exact ih acc hacc
    · rw [if_neg ha]
      refine ih _ (List.Nodup.append hacc (List.nodup_singleton a) ?_)
      intro x hx hxa
      rw [List.mem_singleton] at hxa
      subst hxa
      exact ha hx

theorem loadWords_nodup (lines : List String) (m : Int) : (loadWords lines m).Nodup :=
  (firstDedup_nodup _).filter _

theorem mem_loadWords_of_mem {lines : List String} {m : Int} {s : String}
    (hs : s ∈ lines) (hlen : m ≤ ((canonicalizeWord s).length : Int)) :
    canonicalizeWord s ∈ loadWords lines m := by
  rw [loadWords, List.mem_filter, mem_firstDedup]
  exact ⟨List.mem_map_of_mem _ hs, by simpa using hlen⟩

theorem loadWords_canonical {lines : List String} {m : Int} {w : String}
    (hw : w ∈ loadWords lines m) : ∃ s ∈ lines, w = canonicalizeWord s := by
  rw [loadWords, List.mem_filter, mem_firstDedup] at hw
  obtain ⟨s, hs, rfl⟩ := List.mem_map.mp hw.1
  exact ⟨s, hs, rfl⟩

/-! Claim theorems for `min_word_length` handling (C7). -/

/-- C7 counterexample: on the word list with a line canonicalizing to the
empty word, `min_word_length = 0` admits the empty word, whose zero
signature makes the combination search recurse without progress — the run
exhausts any fuel — while `min_word_length = 1` yields the single anagram:
the two result sequences differ. -/
theorem min_word_length_cex :
    findAnagramsF 3 "AB" ["", "AB"] 0 true = Outcome.noFuel ∧
    findAnagramsF 3 "AB" ["", "AB"] 1 true = Outcome.ok [["AB"]] :=
  ⟨by decide, by decide⟩

/-- C7 amended (min_word_length normalization): `find_anagrams` with
`min_word_length ≤ 0` behaves exactly as with `min_word_length = 1` —
identical results at every fuel, query, and filter setting — provided no
dictionary line canonicalizes to the empty word.  (With such a line the
zero signature enters the index and the two runs differ; see the
counterexample.) -/
theorem min_word_length_le_zero (fuel : Nat) (qw : String) (lines : List String)
    (m : Int) (uf : Bool) (hm : m ≤ 0)
    (hlines : ∀ s ∈ lines, canonicalizeWord s ≠ "") :
    findAnagramsF fuel qw lines m uf = findAnagramsF fuel qw lines 1 uf := by
  have hload : loadWords lines m = loadWords lines 1 := by
    unfold loadWords
    apply List.filter_congr
    intro w hw
    rw [mem_firstDedup] at hw
    obtain ⟨s, hs, rfl⟩ := List.mem_map.mp hw
    have hne := hlines s hs
    have hpos : 0 < (canonicalizeWord s).length := by
      by_contra h
      push_neg at h
      apply hne
      have hlen0 : (canonicalizeWord s).length = 0 := by omega
      have hdata : (canonicalizeWord s).data = [] := List.eq_nil_of_length_eq_zero hlen0
      exact String.ext (by simp [hdata])
    rw [decide_eq_true (by omega : m ≤ ((canonicalizeWord s).length : Int)),
      decide_eq_true (by omega : (1 : Int) ≤ ((canonicalizeWord s).length : Int))]
  unfold findAnagramsF
  rw [hload]

theorem min_word_length_le_zero_witness :
    findAnagramsF 3 "AB" ["AB"] (-2) true = findAnagramsF 3 "AB" ["AB"] 1 true :=
  min_word_length_le_zero 3 "AB" ["AB"] (-2) true (by omega) (by decide)

/-! The prefilter and the empty query word (C8). -/

/-- C8 evidence: the dominance prefilter is not result-transparent as
implemented.  For a query word canonicalizing to the empty string over a
non-empty dictionary, the prefilter path (query word passed to
`_make_tree`) hits the `UnboundLocalError` of anagram.py lines 117/122 —
`if query_word:` is false for the empty string, so `query_vec` is never
bound, yet line 122 only guards on `query_word is None` before reading it —
while the unfiltered path (`query_word=None`) succeeds and yields the
single empty word tuple. -/
theorem prefilter_empty_query_cex :
    findAnagramsF 1 "" ["A"] 1 true = Outcome.nameErr ∧
    findAnagramsF 1 "" ["A"] 1 false = Outcome.ok [[]] :=
  ⟨by decide, by decide⟩

/-! Deduplication of dictionary entries (C10). -/

theorem keptWords_none (words : List String) : keptWords words none = some words := rfl

theorem keptWords_some (words : List String) (qw : String) :
    keptWords words (some qw) =
      if 0 < qw.length then
        some (words.filter fun w => vecLte (makeVec w) (makeVec qw))
      else if words.isEmpty then some [] else none := rfl

theorem keptWords_nodup {words kept : List String} {ow : Option String}
    (h : keptWords words ow = some kept) (hnd : words.Nodup) : kept.Nodup := by
  cases ow with
  | none =>
    rw [keptWords_none] at h
    obtain rfl := Option.some.inj h
    exact hnd
  | some qw =>
    rw [keptWords_some] at h
    split at h
    · obtain rfl := Option.some.inj h
      exact hnd.filter _
    · split at h
      · obtain rfl := Option.some.inj h
        simp
      · exact Option.noConfusion h

theorem vecDict_nodup {kept : List String} (hnd : kept.Nodup) (v : Vec) :
    (vecDict kept v).Nodup :=
  hnd.filter _

theorem vecDict_makeVec {kept : List String} {v : Vec} {w : String}
    (h : w ∈ vecDict kept v) : makeVec w = v := by
  rw [vecDict, List.mem_filter, decide_eq_true_eq] at h
  exact h.2

theorem expand_map_makeVec {d : Vec → List String}
    (hd : ∀ v w, w ∈ d v → makeVec w = v) :
    ∀ (ts : List Vec) (ws : List String), ws ∈ expandAnagramVecs d ts →
      ws.map makeVec = ts := by
  intro ts
  induction ts with
  | nil =>
    intro ws hws
    obtain rfl : ws = [] := by simpa [expandAnagramVecs] using hws
    rfl
  | cons v vs ih =>
    intro ws hws
    rw [show expandAnagramVecs d (v :: vs) =
      (expandAnagramVecs d vs).flatMap fun tail => (d v).map fun w => w :: tail from rfl,
      List.mem_flatMap] at hws
    obtain ⟨tail, htail, hmem⟩ := hws
    obtain ⟨w, hw, rfl⟩ := List.mem_map.mp hmem
    rw [List.map_cons, hd v w hw, ih tail htail]

theorem expand_nodup {d : Vec → List String} (hnd : ∀ v, (d v).Nodup) :
    ∀ ts : List Vec, (expandAnagramVecs d ts).Nodup := by
  intro ts
  induction ts with
  | nil => simp [expandAnagramVecs]
  | cons v vs ih =>
    rw [show expandAnagramVecs d (v :: vs) =
      (expandAnagramVecs d vs).flatMap fun tail => (d v).map fun w => w :: tail from rfl]
    rw [List.nodup_flatMap]
    refine ⟨fun tail htail => (hnd v).map fun x y hxy => by injection hxy, ?_⟩
    refine List.Pairwise.imp ?_ ih
    intro t1 t2 hne ws h1 h2
    obtain ⟨w1, hw1, rfl⟩ := List.mem_map.mp h1
    obtain ⟨w2, hw2, heq⟩ := List.mem_map.mp h2
    injection heq with heq1 heq2
    exact hne heq2.symm

theorem findAnagramsF_eq (fuel : Nat) (qw : String) (lines : List String)
    (m : Int) (uf : Bool) :
    findAnagramsF fuel qw lines m uf =
      match keptWords (loadWords lines m)
          (if uf then some (canonicalizeWord qw) else none) with
      | none => .nameErr
      | some kept =>
        match findAnagramVecsF fuel (treeOf kept) (makeVec (canonicalizeWord qw)) [] with
        | none => .noFuel
        | some tuples =>
          .ok (tuples.flatMap fun ts => expandAnagramVecs (vecDict kept) ts) := rfl

theorem findAnagrams_ok_nodup {fuel : Nat} {qw : String} {lines : List String}
    {m : Int} {uf : Bool} {out : List (List String)}
    (h : findAnagramsF fuel qw lines m uf = Outcome.ok out) : out.Nodup := by
  rw [findAnagramsF_eq] at h
  rcases hkept : keptWords (loadWords lines m)
      (if uf then some (canonicalizeWord qw) else none) with _ | kept
  · rw [hkept] at h
    exact Outcome.noConfusion h
  · rw [hkept] at h
    dsimp only at h
    rcases htuples : findAnagramVecsF fuel (treeOf kept)
        (makeVec (canonicalizeWord qw)) [] with _ | tuples
    · rw [htuples] at h
      exact Outcome.noConfusion h
    · rw [htuples] at h
      dsimp only at h
      injection h with h
      subst h
      have hkeptnd : kept.Nodup := keptWords_nodup hkept (loadWords_nodup lines m)
      rw [List.nodup_flatMap]
      refine ⟨fun ts hts => expand_nodup (vecDict_nodup hkeptnd) ts, ?_⟩
      have htnd : tuples.Nodup :=
        findAnagramVecs_nodup fuel (WFVS_buildTree _) htuples
      refine List.Pairwise.imp ?_ htnd
      intro ts1 ts2 hne ws h1 h2
      have hmk : ∀ v w, w ∈ vecDict kept v → makeVec w = v := fun v w => vecDict_makeVec
      have e1 := expand_map_makeVec hmk ts1 ws h1
      have e2 := expand_map_makeVec hmk ts2 ws h2
      exact hne (e1 ▸ e2 ▸ rfl)

/-- C10 (Deduplication of dictionary entries): input lines canonicalizing
to the same word contribute exactly one entry — the canonicalization of
every sufficiently long line is present and the loaded word list is
duplicate-free; every word list of the vector-to-words mapping built from
the kept words is duplicate-free; and every completed run of
`find_anagrams` yields a duplicate-free list of word tuples, so duplicate
dictionary lines never cause duplicate word tuples in the output. -/
theorem dictionary_dedup {lines : List String} {m : Int} {s : String}
    {ow : Option String} {kept : List String} {fuel : Nat} {qw : String}
    {uf : Bool} {out : List (List String)} :
    (s ∈ lines → m ≤ ((canonicalizeWord s).length : Int) →
      canonicalizeWord s ∈ loadWords lines m) ∧
    (loadWords lines m).Nodup ∧
    (keptWords (loadWords lines m) ow = some kept → ∀ v, (vecDict kept v).Nodup) ∧
    (findAnagramsF fuel qw lines m uf = Outcome.ok out → out.Nodup) :=
  ⟨fun h1 h2 => mem_loadWords_of_mem h1 h2, loadWords_nodup lines m,
   fun hk v => vecDict_nodup (keptWords_nodup hk (loadWords_nodup lines m)) v,
   fun h => findAnagrams_ok_nodup h⟩

theorem dictionary_dedup_witness :
    canonicalizeWord "a" ∈ loadWords ["a", "a!"] 1 ∧
    (loadWords ["a", "a!"] 1).Nodup ∧
    (vecDict (loadWords ["a", "a!"] 1) (makeVec "A")).Nodup ∧
    ([["A"]] : List (List String)).Nodup := by
  have h := @dictionary_dedup ["a", "a!"] 1 "a" none (loadWords ["a", "a!"] 1) 2 "A"
    true [["A"]]
  exact ⟨h.1 (by decide) (by decide), h.2.1, h.2.2.1 rfl (makeVec "A"),
    h.2.2.2 (by decide)⟩

/-! Positivity of stored signature totals in the pipeline (C9). -/

theorem makeVec_nonneg (w : String) : ∀ x ∈ makeVec w, (0 : Int) ≤ x := by
  intro x hx
  obtain ⟨i, -, rfl⟩ := List.mem_map.mp hx
  exact Int.natCast_nonneg _

theorem makeVec_pos_total {w : String} {c : Char} (hc : c ∈ w.toList)
    (hupper : isUpperAlpha c = true) : 0 < vecTotal (makeVec w) := by
  have hrange : 65 ≤ c.toNat ∧ c.toNat ≤ 90 := by
    simpa [isUpperAlpha, Bool.and_eq_true] using hupper
  have hi26 : c.toNat - 65 < 26 := by omega
  have hchar : Char.ofNat (65 + (c.toNat - 65)) = c := by
    rw [show 65 + (c.toNat - 65) = c.toNat by omega, Char.ofNat_toNat]
  have hmem : ((w.toList.count (Char.ofNat (65 + (c.toNat - 65))) : Nat) : Int) ∈
      makeVec w :=
    List.mem_map.mpr ⟨c.toNat - 65, List.mem_range.mpr hi26, rfl⟩
  have hcount : 0 < w.toList.count (Char.ofNat (65 + (c.toNat - 65))) := by
    rw [hchar]
    exact List.count_pos_iff.mpr hc
  have hsum := List.single_le_sum (makeVec_nonneg w) _ hmem
  have hpos : (0 : Int) < ((w.toList.count (Char.ofNat (65 + (c.toNat - 65))) : Nat) : Int) := by
    exact_mod_cast hcount
  unfold vecTotal
  omega

theorem keptWords_subset {words kept : List String} {ow : Option String}
    (h : keptWords words ow = some kept) : ∀ w ∈ kept, w ∈ words := by
  cases ow with
  | none =>
    rw [keptWords_none] at h
    obtain rfl := Option.some.inj h
    exact fun w hw => hw
  | some qw =>
    rw [keptWords_some] at h
    split at h
    · obtain rfl := Option.some.inj h
      exact fun w hw => (List.mem_filter.mp hw).1
    · split at h
      · obtain rfl := Option.some.inj h
        simp
      · exact Option.noConfusion h

theorem loadWords_min_length {lines : List String} {m : Int} {w : String}
    (hw : w ∈ loadWords lines m) : m ≤ (w.length : Int) := by
  rw [loadWords, List.mem_filter] at hw
  simpa using hw.2

theorem treeOf_pos_total {lines : List String} {m : Int} {ow : Option String}
    {kept : List String} (hm : 1 ≤ m)
    (hk : keptWords (loadWords lines m) ow = some kept) :
    ∀ v, memVec (treeOf kept) v = true → 0 < vecTotal v := by
  intro v hv
  rw [treeOf, memVec_buildTree, mem_firstDedup] at hv
  obtain ⟨w, hwkept, rfl⟩ := List.mem_map.mp hv
  have hwload := keptWords_subset hk w hwkept
  obtain ⟨s, hs, rfl⟩ := loadWords_canonical hwload
  have hlen := loadWords_min_length hwload
  rcases hlist : (canonicalizeWord s).toList with _ | ⟨c, cs⟩
  · exfalso
    have h0 : (canonicalizeWord s).length = 0 := by
      rw [show (canonicalizeWord s).length = (canonicalizeWord s).toList.length from rfl,
        hlist]
      rfl
    rw [h0] at hlen
    omega
  · have hc : c ∈ (canonicalizeWord s).toList := by
      rw [hlist]
      exact List.mem_cons_self _ _
    have hupper : isUpperAlpha c = true := by
      have he : (canonicalizeWord s).toList =
          (s.toList.map Char.toUpper).filter isUpperAlpha := rfl
      rw [he] at hc
      exact List.of_mem_filter hc
    exact makeVec_pos_total hc hupper

/-- C9 (Termination): if every signature stored in the tree has positive
component total, the combination search finishes for every query vector and
lower bound once the fuel exceeds the query's component total, because
each recursive call strictly decreases that total
(`findAnagramVecs_total_lt`); and the positivity hypothesis indeed holds
for every signature the pipeline stores whenever the effective minimum word
length is at least 1, since letterless words are then excluded. -/
theorem combination_search_terminates :
    (∀ (tree : VectorSet) (q mv : Vec),
      (∀ v, memVec tree v = true → 0 < vecTotal v) →
      ∃ l, findAnagramVecsF (vecTotalNat q + 1) tree q mv = some l) ∧
    (∀ (lines : List String) (m : Int) (ow : Option String) (kept : List String),
      1 ≤ m → keptWords (loadWords lines m) ow = some kept →
      ∀ v, memVec (treeOf kept) v = true → 0 < vecTotal v) :=
  ⟨fun tree q mv htree => findAnagramVecs_terminates _ htree (by omega),
   fun lines m ow kept hm hk => treeOf_pos_total hm hk⟩

theorem combination_search_terminates_witness :
    (∃ l, findAnagramVecsF 3 (buildTree [[1]]) [2] [] = some l) ∧
    0 < vecTotal (makeVec "A") :=
  ⟨combination_search_terminates.1 (buildTree [[1]]) [2] []
      (fun v hv => by
        rw [memVec_buildTree] at hv
        simp only [List.mem_singleton] at hv
        subst hv
        decide),
   combination_search_terminates.2 ["A"] 1 none (loadWords ["A"] 1) (by omega) rfl
     (makeVec "A") (by decide)⟩
